import Mathlib

/-!
Verification of the natural-language specification of the `ralphje/adventofcode`
repository against its Python source.  Each Python fragment that the claims
touch is embedded shallowly as executable Lean definitions:

* `solutions/year2023/day05.py` — `Range`, `MappingItem`, `_convert_value`,
  `_convert_range`, `_parse_mappings`, `part_2`, `part_2_naive`;
* `solutions/common/strings.py`  — `ints`;
* `solutions/common/math.py`     — `chinese_remainder`;
* `solutions/year2023/day09.py`  — `extrapolate`;
* `solutions/year2023/day20.py`  — the module network and `handle_signals`;
* `solutions/run.py`             — `run_function`;
* `solutions/common/grid.py`     — `Grid`, `in_bounds`, `get`, `orthogonal`,
  `diagonal`, `adjacent`.

Python strings are modelled as `List Char`, Python integers as `Int`, and a
computation that can raise an exception returns `Option`/`Except`.
-/

namespace Day05

/-- The `Range` class of day05.py: `start`/`stop` fields, as constructed by
`Range(start, size)` which stores `start` and `stop = start + size`. -/
structure Range where
  start : Int
  stop : Int
deriving DecidableEq

/-- `Range(start, size)` — the Python constructor takes a start and a size. -/
def Range.ofSize (start size : Int) : Range := ⟨start, start + size⟩

/-- `len(range)`, i.e. `stop - start` (`__len__`). -/
def Range.len (r : Range) : Int := r.stop - r.start

/-- `item in range`, i.e. `start <= item < stop` (`__contains__`). -/
def Range.memB (r : Range) (v : Int) : Bool := decide (r.start ≤ v ∧ v < r.stop)

/-- Truthiness of a `Range` (used by `if overlap:`): Python falls back to
`__len__`, so a range is truthy iff its length is non-zero.  Every range this
is applied to in day05.py is an intersection, whose length is never negative,
so `start < stop` is the faithful rendering. -/
def Range.isNonempty (r : Range) : Bool := decide (r.start < r.stop)

/-- `__and__`: the intersection of two ranges: start is the max of the starts,
end the min of the stops; when the resulting length is not positive the result
is `Range(0, 0)`. -/
def Range.inter (r other : Range) : Range :=
  if 0 < min r.stop other.stop - max r.start other.start then
    ⟨max r.start other.start, min r.stop other.stop⟩
  else ⟨0, 0⟩

/-- `__add__`: `Range(start + other, len(self))`. -/
def Range.add (r : Range) (k : Int) : Range := ⟨r.start + k, r.stop + k⟩

/-- `__sub__`: `Range(start - other, len(self))`. -/
def Range.sub (r : Range) (k : Int) : Range := ⟨r.start - k, r.stop - k⟩

/-- `Range.cut`: cuts away `other`, returning 0, 1 or 2 ranges at either end
of the cut. -/
def Range.cut (r other : Range) : List Range :=
  (if r.start < other.start then [Range.mk r.start other.start] else []) ++
  (if other.stop < r.stop then [Range.mk other.stop r.stop] else [])

theorem memB_iff {r : Range} {v : Int} :
    r.memB v = true ↔ (r.start ≤ v ∧ v < r.stop) := by
  simp [Range.memB]

theorem memB_false_iff {r : Range} {v : Int} :
    r.memB v = false ↔ ¬ (r.start ≤ v ∧ v < r.stop) := by
  simp [Range.memB]

theorem inter_isNonempty_iff {r o : Range} :
    (r.inter o).isNonempty = true ↔
      max r.start o.start < min r.stop o.stop := by
  unfold Range.inter Range.isNonempty
  split <;> simp <;> omega

theorem memB_inter {r o : Range} {v : Int} :
    (r.inter o).memB v = true ↔ (r.memB v = true ∧ o.memB v = true) := by
  unfold Range.inter
  split <;> simp [memB_iff] <;> omega

/-- Characterisation of the members of the `cut` result list. -/
theorem mem_cut {r c p : Range} :
    p ∈ r.cut c ↔
      ((r.start < c.start ∧ p = ⟨r.start, c.start⟩)
        ∨ (c.stop < r.stop ∧ p = ⟨c.stop, r.stop⟩)) := by
  unfold Range.cut
  split <;> split <;> simp_all <;> omega

/-- Every range produced by `cut` lies strictly inside `r` (in length) and is
non-empty, provided the cut range overlaps `r`. -/
theorem mem_cut_len {r c p : Range}
    (h : (r.inter c).isNonempty = true) (hp : p ∈ r.cut c) :
    0 < p.len ∧ p.len < r.len := by
  rw [inter_isNonempty_iff] at h
  rw [mem_cut] at hp
  rcases hp with ⟨h1, rfl⟩ | ⟨h1, rfl⟩ <;> simp [Range.len] <;> omega

/-- Members of `cut` pieces: exactly the integers of `r` below / above `c`. -/
theorem mem_cut_iff {r c : Range} {v : Int}
    (h : (r.inter c).isNonempty = true) :
    (∃ p ∈ r.cut c, p.memB v = true) ↔
      (r.memB v = true ∧ c.memB v = false) := by
  rw [inter_isNonempty_iff] at h
  constructor
  · rintro ⟨p, hp, hv⟩
    rw [mem_cut] at hp
    rcases hp with ⟨h1, rfl⟩ | ⟨h1, rfl⟩ <;>
      simp_all [memB_iff, memB_false_iff] <;> omega
  · rintro ⟨hr, hc⟩
    rw [memB_iff] at hr
    rw [memB_false_iff] at hc
    by_cases hlo : v < c.start
    · refine ⟨⟨r.start, c.start⟩, ?_, ?_⟩
      · rw [mem_cut]; left; exact ⟨by omega, rfl⟩
      · simp [memB_iff]; omega
    · refine ⟨⟨c.stop, r.stop⟩, ?_, ?_⟩
      · rw [mem_cut]; right; exact ⟨by omega, rfl⟩
      · simp [memB_iff]; omega

theorem cut_disjoint_of_cut {r c p : Range} {v : Int}
    (hp : p ∈ r.cut c) (hv : p.memB v = true) :
    c.memB v = false := by
  rw [mem_cut] at hp
  rcases hp with ⟨h1, rfl⟩ | ⟨h1, rfl⟩ <;>
    simp_all [memB_iff, memB_false_iff] <;> omega

theorem cut_length_le {r c : Range} : (r.cut c).length ≤ 2 := by
  unfold Range.cut
  split <;> split <;> simp

theorem cut_pairwise {r c : Range}
    (h : (r.inter c).isNonempty = true) :
    List.Pairwise (fun p q => ∀ v : Int, p.memB v = true → q.memB v = false)
      (r.cut c) := by
  rw [inter_isNonempty_iff] at h
  unfold Range.cut
  split <;> split <;>
    simp_all [List.pairwise_cons, memB_iff, memB_false_iff] <;> omega

/-- C8: for ranges `r` and `c` whose intersection is non-empty, `r.cut c`
returns at most two ranges, pairwise disjoint, disjoint from `c`, whose union
is exactly the set of integers in `r` but not in `c`. -/
theorem cut_correct (r c : Range) (h : (r.inter c).isNonempty = true) :
    (r.cut c).length ≤ 2
    ∧ List.Pairwise (fun p q => ∀ v : Int, p.memB v = true → q.memB v = false)
        (r.cut c)
    ∧ (∀ p ∈ r.cut c, ∀ v : Int, p.memB v = true → c.memB v = false)
    ∧ (∀ v : Int,
        (∃ p ∈ r.cut c, p.memB v = true) ↔
          (r.memB v = true ∧ c.memB v = false)) := by
  refine ⟨cut_length_le, cut_pairwise h, ?_, fun v => mem_cut_iff h⟩
  intro p hp v hv
  exact cut_disjoint_of_cut hp hv

/-- A closed instance of `cut_correct` at a concrete overlapping pair. -/
theorem cut_correct_witness :
    ((Range.ofSize 0 10).inter (Range.ofSize 3 4)).isNonempty = true
    ∧ ((Range.ofSize 0 10).cut (Range.ofSize 3 4)).length ≤ 2
    ∧ List.Pairwise
        (fun p q => ∀ v : Int, p.memB v = true → q.memB v = false)
        ((Range.ofSize 0 10).cut (Range.ofSize 3 4))
    ∧ (∀ p ∈ (Range.ofSize 0 10).cut (Range.ofSize 3 4), ∀ v : Int,
        p.memB v = true → (Range.ofSize 3 4).memB v = false)
    ∧ (∀ v : Int,
        (∃ p ∈ (Range.ofSize 0 10).cut (Range.ofSize 3 4), p.memB v = true) ↔
          ((Range.ofSize 0 10).memB v = true
            ∧ (Range.ofSize 3 4).memB v = false)) :=
  ⟨by decide, cut_correct (Range.ofSize 0 10) (Range.ofSize 3 4) (by decide)⟩

/-- The `MappingItem` class: a source range together with the offset
(`difference`) added to values of the source range to obtain target values. -/
structure MappingItem where
  range : Range
  difference : Int
deriving DecidableEq

/-- The `source_range` property (just `range`). -/
def MappingItem.source_range (m : MappingItem) : Range := m.range

/-- The `target_range` property (`range + difference`). -/
def MappingItem.target_range (m : MappingItem) : Range :=
  m.range.add m.difference

/-- `_convert_value`: step through the mapping items and translate the value
using the first item whose source range contains it; return the raw value if
no range is found. -/
def convert_value (value : Int) : List MappingItem → Int
  | [] => value
  | mi :: rest =>
    if mi.source_range.memB value then value + mi.difference
    else convert_value value rest

/-- The search performed by the `for` loop in `_convert_range`: the first
mapping item whose source range overlaps `t` (the target range of the range
being converted). -/
def findFirstOverlap (t : Range) : List MappingItem → Option MappingItem
  | [] => none
  | mi :: rest =>
    if (t.inter mi.source_range).isNonempty then some mi
    else findFirstOverlap t rest

theorem findFirstOverlap_overlap {t : Range} {mapping : List MappingItem}
    {mi : MappingItem} (h : findFirstOverlap t mapping = some mi) :
    (t.inter mi.source_range).isNonempty = true := by
  induction mapping with
  | nil => simp [findFirstOverlap] at h
  | cons hd tl ih =>
    unfold findFirstOverlap at h
    split at h
    · cases h; assumption
    · exact ih h

theorem findFirstOverlap_none {t : Range} {mapping : List MappingItem}
    (h : findFirstOverlap t mapping = none) {w : Int} (hw : t.memB w = true) :
    ∀ mi ∈ mapping, mi.source_range.memB w = false := by
  induction mapping with
  | nil => simp
  | cons hd tl ih =>
    unfold findFirstOverlap at h
    split at h
    · cases h
    · intro mi hmi
      rcases List.mem_cons.mp hmi with rfl | hmi
      · rename_i hno
        cases hcm : mi.source_range.memB w
        · rfl
        · exfalso
          apply hno
          rw [inter_isNonempty_iff]
          rw [memB_iff] at hw hcm
          omega
      · exact ih h mi hmi

/-- If no mapping item contains `w`, `_convert_value` returns `w` itself. -/
theorem convert_value_of_none {mapping : List MappingItem} {w : Int}
    (h : ∀ mi ∈ mapping, mi.source_range.memB w = false) :
    convert_value w mapping = w := by
  induction mapping with
  | nil => rfl
  | cons hd tl ih =>
    unfold convert_value
    rw [h hd (List.mem_cons_self hd tl)]
    exact ih fun mi hmi => h mi (List.mem_cons_of_mem hd hmi)

/-- If `mi` is the first item whose source range overlaps `t`, then for a
value `w` of `t` that lies in `mi`'s source range, `_convert_value` translates
`w` by exactly `mi.difference`. -/
theorem convert_value_of_first {t : Range} {mapping : List MappingItem}
    {mi : MappingItem} (h : findFirstOverlap t mapping = some mi) {w : Int}
    (hw : t.memB w = true) (hmem : mi.source_range.memB w = true) :
    convert_value w mapping = w + mi.difference := by
  induction mapping with
  | nil => simp [findFirstOverlap] at h
  | cons hd tl ih =>
    unfold findFirstOverlap at h
    unfold convert_value
    split at h
    · cases h
      rw [hmem]
      simp
    · rename_i hno
      have hhd : hd.source_range.memB w = false := by
        cases hcm : hd.source_range.memB w
        · rfl
        · exfalso
          apply hno
          rw [inter_isNonempty_iff]
          rw [memB_iff] at hw hcm
          omega
      rw [hhd]
      exact ih h

/-- `_convert_range`: given a mapping item `m` (a source range en route to its
target range) and a mapping, yield the pieces of `m` after translating its
target range through the mapping.  The first mapping item whose source range
overlaps `m`'s target range contributes the overlap (re-targeted by the sum of
the differences); the remainders of the cut are converted recursively; if no
item overlaps, `m` is yielded unchanged. -/
def convert_range (m : MappingItem) (mapping : List MappingItem) :
    List MappingItem :=
  match hf : findFirstOverlap m.target_range mapping with
  | some mi =>
    ⟨(m.target_range.inter mi.source_range).sub m.difference,
      m.difference + mi.difference⟩ ::
      (m.target_range.cut mi.source_range).attach.flatMap
        (fun r =>
          convert_range ⟨r.1.sub m.difference, m.difference⟩ mapping)
  | none => [m]
termination_by (m.range.len).toNat
decreasing_by
  have ho := findFirstOverlap_overlap hf
  have hc := mem_cut_len ho r.2
  simp only [MappingItem.target_range, Range.add, Range.len, Range.sub] at *
  omega

/-- Two mapping items have disjoint source ranges. -/
def SourcesDisjoint (p q : MappingItem) : Prop :=
  ∀ v : Int, p.source_range.memB v = true → q.source_range.memB v = false

theorem memB_sub {r : Range} {k v : Int} :
    (r.sub k).memB v = true ↔ r.memB (v + k) = true := by
  simp only [Range.sub, memB_iff]
  omega

theorem memB_target {m : MappingItem} {v : Int} :
    m.source_range.memB v = true ↔
      m.target_range.memB (v + m.difference) = true := by
  simp only [MappingItem.source_range, MappingItem.target_range, Range.add,
    memB_iff]
  omega

theorem isNonempty_sub {r : Range} {k : Int} :
    (r.sub k).isNonempty = (r).isNonempty := by
  simp only [Range.sub, Range.isNonempty, decide_eq_decide]
  omega

theorem target_isNonempty {m : MappingItem} :
    m.target_range.isNonempty = m.source_range.isNonempty := by
  simp only [MappingItem.source_range, MappingItem.target_range, Range.add,
    Range.isNonempty, decide_eq_decide]
  omega

theorem attach_flatMap (l : List Range) (f : Range → List MappingItem) :
    l.attach.flatMap (fun r => f r.1) = l.flatMap f := by
  rw [← List.attach_map_subtype_val l, List.flatMap_map]
  simp

theorem convert_range_eq_none {m : MappingItem} {mapping : List MappingItem}
    (h : findFirstOverlap m.target_range mapping = none) :
    convert_range m mapping = [m] := by
  unfold convert_range
  split
  · rename_i mi hf
    rw [h] at hf
    cases hf
  · rfl

theorem convert_range_eq_some {m : MappingItem} {mapping : List MappingItem}
    {mi : MappingItem}
    (h : findFirstOverlap m.target_range mapping = some mi) :
    convert_range m mapping =
      ⟨(m.target_range.inter mi.source_range).sub m.difference,
        m.difference + mi.difference⟩ ::
        (m.target_range.cut mi.source_range).flatMap
          (fun r =>
            convert_range ⟨r.sub m.difference, m.difference⟩ mapping) := by
  conv_lhs => unfold convert_range
  split
  · rename_i mi' hf
    rw [h] at hf
    cases hf
    refine congrArg (List.cons _) ?_
    exact attach_flatMap (m.target_range.cut mi.source_range)
      (fun x => convert_range ⟨x.sub m.difference, m.difference⟩ mapping)
  · rename_i hf
    rw [h] at hf
    cases hf


/-- The full specification of `_convert_range`, proved by strong induction on
the length of the range being converted: the source ranges of the output
partition the input's source range, each output piece translates its values
exactly as `_convert_value` translates the corresponding target value, the
pieces are non-empty when the input is, pairwise disjoint, and the output is
never the empty list. -/
theorem convert_range_spec :
    ∀ (n : Nat) (m : MappingItem) (mapping : List MappingItem),
      (m.range.len).toNat ≤ n →
      (∀ v : Int,
        (∃ p ∈ convert_range m mapping, p.source_range.memB v = true) ↔
          m.source_range.memB v = true)
      ∧ (∀ p ∈ convert_range m mapping, ∀ v : Int,
          p.source_range.memB v = true →
            v + p.difference = convert_value (v + m.difference) mapping)
      ∧ (m.source_range.isNonempty = true →
          ∀ p ∈ convert_range m mapping, p.source_range.isNonempty = true)
      ∧ List.Pairwise SourcesDisjoint (convert_range m mapping)
      ∧ convert_range m mapping ≠ [] := by
  intro n
  induction n with
  | zero =>
    intro m mapping hn
    match hf : findFirstOverlap m.target_range mapping with
    | some mi =>
      exfalso
      have ho := findFirstOverlap_overlap hf
      rw [inter_isNonempty_iff] at ho
      simp only [MappingItem.target_range, Range.add, Range.len] at ho hn
      omega
    | none =>
      rw [convert_range_eq_none hf]
      refine ⟨by simp, ?_, by simp_all, by simp, by simp⟩
      intro p hp v hv
      rw [List.mem_singleton] at hp
      subst hp
      rw [convert_value_of_none
        (findFirstOverlap_none hf (memB_target.mp hv))]
  | succ n ih =>
    intro m mapping hn
    match hf : findFirstOverlap m.target_range mapping with
    | none =>
      rw [convert_range_eq_none hf]
      refine ⟨by simp, ?_, by simp_all, by simp, by simp⟩
      intro p hp v hv
      rw [List.mem_singleton] at hp
      subst hp
      rw [convert_value_of_none
        (findFirstOverlap_none hf (memB_target.mp hv))]
    | some mi =>
      have ho := findFirstOverlap_overlap hf
      rw [convert_range_eq_some hf]
      have hrec : ∀ r ∈ m.target_range.cut mi.source_range,
          ((⟨r.sub m.difference, m.difference⟩ : MappingItem).range.len).toNat
            ≤ n := by
        intro r hr
        obtain ⟨hc1, hc2⟩ := mem_cut_len ho hr
        show ((r.sub m.difference).len).toNat ≤ n
        simp only [Range.sub, Range.len, MappingItem.target_range,
          Range.add] at hc1 hc2 hn ⊢
        omega
      -- the source set of each recursive call's output is exactly `r.sub d`
      have hsub : ∀ r ∈ m.target_range.cut mi.source_range, ∀ v : Int,
          (∃ p ∈ convert_range ⟨r.sub m.difference, m.difference⟩ mapping,
              p.source_range.memB v = true) ↔
            r.memB (v + m.difference) = true := by
        intro r hr v
        rw [(ih _ mapping (hrec r hr)).1 v]
        simp only [MappingItem.source_range]
        exact memB_sub
      constructor
      · -- (1) union of output source ranges = input source range
        intro v
        simp only [List.mem_cons, List.mem_flatMap]
        constructor
        · rintro ⟨p, (rfl | ⟨r, hr, hp⟩), hv⟩
          · simp only [MappingItem.source_range] at hv
            rw [memB_sub, memB_inter] at hv
            rw [memB_target]
            exact hv.1
          · have h1 := (hsub r hr v).mp ⟨p, hp, hv⟩
            have h2 := (mem_cut_iff ho).mp ⟨r, hr, h1⟩
            rw [memB_target]
            exact h2.1
        · intro hv
          rw [memB_target] at hv
          by_cases hs : mi.source_range.memB (v + m.difference) = true
          · refine ⟨_, Or.inl rfl, ?_⟩
            simp only [MappingItem.source_range]
            rw [memB_sub, memB_inter]
            exact ⟨hv, hs⟩
          · rw [Bool.not_eq_true] at hs
            obtain ⟨r, hr, hrv⟩ := (mem_cut_iff ho).mpr ⟨hv, hs⟩
            obtain ⟨p, hp, hpv⟩ := (hsub r hr v).mpr hrv
            exact ⟨p, Or.inr ⟨r, hr, hp⟩, hpv⟩
      constructor
      · -- (2) each piece translates as `_convert_value` does
        intro p hp v hv
        rcases List.mem_cons.mp hp with rfl | hp
        · simp only [MappingItem.source_range] at hv
          rw [memB_sub, memB_inter] at hv
          have hcv := convert_value_of_first hf hv.1 hv.2
          rw [hcv]
          ring
        · obtain ⟨r, hr, hpr⟩ := List.mem_flatMap.mp hp
          exact (ih _ mapping (hrec r hr)).2.1 p hpr v hv
      constructor
      · -- (3) all pieces non-empty (the overlap case needs no hypothesis)
        intro _ p hp
        rcases List.mem_cons.mp hp with rfl | hp
        · simp only [MappingItem.source_range]
          rw [isNonempty_sub]
          exact ho
        · obtain ⟨r, hr, hpr⟩ := List.mem_flatMap.mp hp
          have hrne : ((⟨r.sub m.difference, m.difference⟩ :
              MappingItem)).source_range.isNonempty = true := by
            have h1 := (mem_cut_len ho hr).1
            simp only [MappingItem.source_range, Range.sub, Range.isNonempty,
              Range.len, decide_eq_true_eq] at h1 ⊢
            omega
          exact (ih _ mapping (hrec r hr)).2.2.1 hrne p hpr
      constructor
      · -- (4) pairwise disjoint source ranges
        rw [List.pairwise_cons]
        constructor
        · intro q hq v hv
          obtain ⟨r, hr, hqr⟩ := List.mem_flatMap.mp hq
          simp only [MappingItem.source_range] at hv
          rw [memB_sub, memB_inter] at hv
          cases hqv : q.source_range.memB v
          · rfl
          · exfalso
            have h1 := (hsub r hr v).mp ⟨q, hqr, hqv⟩
            have h2 := cut_disjoint_of_cut hr h1
            simp only [MappingItem.source_range] at h2
            rw [hv.2] at h2
            cases h2
        · rw [List.pairwise_flatMap]
          constructor
          · intro r hr
            exact (ih _ mapping (hrec r hr)).2.2.2.1
          · have hcp := cut_pairwise ho
            refine List.Pairwise.imp_of_mem ?_ hcp
            intro r1 r2 hr1 hr2 hdis q1 hq1 q2 hq2 v hv
            have h1 := (hsub r1 hr1 v).mp ⟨q1, hq1, hv⟩
            cases hq2v : q2.source_range.memB v
            · rfl
            · exfalso
              have h2 := (hsub r2 hr2 v).mp ⟨q2, hq2, hq2v⟩
              have := hdis (v + m.difference) h1
              rw [h2] at this
              cases this
      · -- (5) output non-empty
        simp

/-- C2: for a `MappingItem` with non-empty source range and a mapping whose
items have pairwise disjoint source ranges, the pieces yielded by
`_convert_range` have pairwise disjoint source ranges whose union is exactly
the input's source range, and the piece containing a value `v` assigns it the
target value `_convert_value(v + m.difference, mapping)`. -/
theorem convert_range_correct (m : MappingItem) (mapping : List MappingItem)
    (hne : m.source_range.isNonempty = true)
    (hdisj : List.Pairwise SourcesDisjoint mapping) :
    List.Pairwise SourcesDisjoint (convert_range m mapping)
    ∧ (∀ v : Int,
        (∃ p ∈ convert_range m mapping, p.source_range.memB v = true) ↔
          m.source_range.memB v = true)
    ∧ (∀ p ∈ convert_range m mapping, ∀ v : Int,
        p.source_range.memB v = true →
          v + p.difference = convert_value (v + m.difference) mapping) := by
  obtain ⟨h1, h2, _, h4, _⟩ :=
    convert_range_spec (m.range.len).toNat m mapping le_rfl
  exact ⟨h4, h1, h2⟩

/-- A closed instance of `convert_range_correct`: the range `[0, 10)` pushed
through a single mapping item that translates `[3, 7)` by `+100`. -/
theorem convert_range_correct_witness :
    (⟨⟨0, 10⟩, 0⟩ : MappingItem).source_range.isNonempty = true
    ∧ List.Pairwise SourcesDisjoint [(⟨⟨3, 7⟩, 100⟩ : MappingItem)]
    ∧ (List.Pairwise SourcesDisjoint
        (convert_range ⟨⟨0, 10⟩, 0⟩ [(⟨⟨3, 7⟩, 100⟩ : MappingItem)])
      ∧ (∀ v : Int,
          (∃ p ∈ convert_range ⟨⟨0, 10⟩, 0⟩ [(⟨⟨3, 7⟩, 100⟩ : MappingItem)],
              p.source_range.memB v = true) ↔
            (⟨⟨0, 10⟩, 0⟩ : MappingItem).source_range.memB v = true)
      ∧ (∀ p ∈ convert_range ⟨⟨0, 10⟩, 0⟩ [(⟨⟨3, 7⟩, 100⟩ : MappingItem)],
          ∀ v : Int, p.source_range.memB v = true →
            v + p.difference =
              convert_value (v + (⟨⟨0, 10⟩, 0⟩ : MappingItem).difference)
                [(⟨⟨3, 7⟩, 100⟩ : MappingItem)])) :=
  ⟨by decide, by simp,
    convert_range_correct _ _ (by decide) (by simp)⟩

end Day05

namespace Strings

/-- The scanning loop of Python `str.split(sep)` (for a non-empty separator):
walk the string; whenever `sep` occurs at the current position, emit the
accumulated chunk and skip the separator.  `skip` counts separator characters
that remain to be consumed; `acc` is the current chunk, reversed. -/
def splitAux (sep : List Char) : List Char → Nat → List Char → List (List Char)
  | [], _, acc => [acc.reverse]
  | _ :: rest, Nat.succ k, acc => splitAux sep rest k acc
  | c :: rest, 0, acc =>
    if sep.isPrefixOf (c :: rest) && !sep.isEmpty then
      acc.reverse :: splitAux sep rest (sep.length - 1) []
    else splitAux sep rest 0 (c :: acc)

/-- Python `s.split(sep)` for a non-empty separator. -/
def pySplit (s sep : List Char) : List (List Char) := splitAux sep s 0 []

/-- Python `s.splitlines()` for strings whose only line separator is `'\n'`:
split on newlines, without a trailing empty chunk for a trailing newline. -/
def pySplitlines (s : List Char) : List (List Char) :=
  match (pySplit s ['\n']).getLast? with
  | some [] => (pySplit s ['\n']).dropLast
  | _ => pySplit s ['\n']

/-- State of the `-?\d+` scanner behind `ints` (`_ALL_INTS_RE.findall`):
either between matches, just after a bare `-`, or inside a number. -/
inductive ScanState where
  | idle
  | dash
  | num (neg : Bool) (val : Nat)

/-- The scanning loop of `ints`: find every (non-overlapping, leftmost)
match of `-?\d+` and convert it to an integer. -/
def ints_go : List Char → ScanState → List Int
  | [], .idle => []
  | [], .dash => []
  | [], .num neg val => [if neg then -(val : Int) else (val : Int)]
  | c :: rest, .num neg val =>
    if c.isDigit then ints_go rest (.num neg (val * 10 + (c.toNat - 48)))
    else
      (if neg then -(val : Int) else (val : Int)) ::
        ints_go rest (if c = '-' then .dash else .idle)
  | c :: rest, .dash =>
    if c.isDigit then ints_go rest (.num true (c.toNat - 48))
    else ints_go rest (if c = '-' then .dash else .idle)
  | c :: rest, .idle =>
    if c.isDigit then ints_go rest (.num false (c.toNat - 48))
    else ints_go rest (if c = '-' then .dash else .idle)

/-- `ints`: return all integers in the provided string. -/
def ints (s : List Char) : List Int := ints_go s .idle

end Strings

namespace Day05

/-- One line of a mapping section: skipped if it contains no integers
(`if (split := ints(line))`), otherwise `destination source size` —
`MappingItem(Range(split[1], split[2]), split[0] - split[1])`; fewer than
three integers is an `IndexError` (`none`). -/
def parse_line (line : List Char) : Option (Option MappingItem) :=
  match Strings.ints line with
  | [] => some none
  | d :: s :: sz :: _ => some (some ⟨Range.ofSize s sz, d - s⟩)
  | _ => none

/-- One mapping section of `_parse_mappings`: all lines after the section
title, skipping lines without integers. -/
def parse_section (s : List Char) : Option (List MappingItem) :=
  ((Strings.pySplitlines s).tail).foldr
    (fun line acc => do
      let items ← acc
      let item ← parse_line line
      match item with
      | none => pure items
      | some it => pure (it :: items))
    (pure [])

/-- `_parse_mappings`: parse every section except the first (the seeds). -/
def parse_mappings (sections : List (List Char)) :
    Option (List (List MappingItem)) :=
  (sections.drop 1).mapM parse_section

/-- `itertools.batched(_, 2)` with exact unpacking into pairs: fails
(`ValueError`) on a trailing odd element. -/
def batched2 : List Int → Option (List (Int × Int))
  | [] => some []
  | [_] => none
  | a :: b :: rest => (batched2 rest).map (fun l => (a, b) :: l)

/-- `range(seed_start, seed_start + seed_size)` as a list. -/
def seedList (start size : Int) : List Int :=
  (List.range size.toNat).map (fun (i : Nat) => start + (i : Int))

/-- The separator of `document.split("\n\n")`. -/
def newline2 : List Char := ['\n', '\n']

/-- `part_2`: parse the seed ranges and the mappings, push the seed ranges
through every mapping with `_convert_range`, and take the minimal start of
the resulting target ranges.  `none` models a raised exception (bad input or
`min` of an empty sequence). -/
def part_2 (document : String) : Option Int :=
  let sections := Strings.pySplit document.toList newline2
  match parse_mappings sections with
  | none => none
  | some mappings =>
    match batched2 (Strings.ints (sections.headD [])) with
    | none => none
    | some pairs =>
      let seed_ranges :=
        pairs.map (fun p => (⟨Range.ofSize p.1 p.2, 0⟩ : MappingItem))
      let final := mappings.foldl
        (fun acc mapping => acc.flatMap (fun s => convert_range s mapping))
        seed_ranges
      (final.map (fun s => s.target_range.start)).min?

/-- `part_2_naive`: the brute-force version — convert every individual seed
of every seed range through the chain of mappings with `_convert_value` and
take the minimum. -/
def part_2_naive (document : String) : Option Int :=
  let sections := Strings.pySplit document.toList newline2
  match parse_mappings sections with
  | none => none
  | some mappings =>
    match batched2 (Strings.ints (sections.headD [])) with
    | none => none
    | some pairs =>
      ((pairs.flatMap (fun p => seedList p.1 p.2)).map
        (fun seed =>
          mappings.foldl (fun v mapping => convert_value v mapping) seed)).min?

end Day05

namespace Day05

theorem int_min?_eq_some_iff {l : List Int} {a : Int} :
    l.min? = some a ↔ a ∈ l ∧ ∀ b ∈ l, a ≤ b :=
  @List.min?_eq_some_iff Int a _ _
    ⟨fun h1 h2 => le_antisymm h1 h2⟩
    (fun a => le_refl a) (fun a b => min_choice a b)
    (fun _ _ _ => le_min_iff) l

/-- `min?` only depends on the set of values up to mutual domination. -/
theorem min?_congr {A B : List Int}
    (h1 : ∀ x ∈ A, ∃ y ∈ B, y ≤ x) (h2 : ∀ y ∈ B, ∃ x ∈ A, x ≤ y) :
    A.min? = B.min? := by
  cases hA : A.min? with
  | none =>
    rw [List.min?_eq_none_iff] at hA
    subst hA
    cases hB : B.min? with
    | none => rfl
    | some b =>
      obtain ⟨hb, _⟩ := int_min?_eq_some_iff.mp hB
      obtain ⟨x, hx, _⟩ := h2 b hb
      cases hx
  | some a =>
    obtain ⟨ha, hale⟩ := int_min?_eq_some_iff.mp hA
    cases hB : B.min? with
    | none =>
      rw [List.min?_eq_none_iff] at hB
      subst hB
      obtain ⟨y, hy, _⟩ := h1 a ha
      cases hy
    | some b =>
      obtain ⟨hb, hble⟩ := int_min?_eq_some_iff.mp hB
      obtain ⟨y, hy, hya⟩ := h1 a ha
      obtain ⟨x, hx, hxb⟩ := h2 b hb
      rw [le_antisymm (le_trans (hale x hx) hxb) (le_trans (hble y hy) hya)]

/-- Membership of a target range, in terms of the source range. -/
theorem target_exists {q : MappingItem} {w : Int} :
    q.target_range.memB w = true ↔
      ∃ v, q.source_range.memB v = true ∧ w = v + q.difference := by
  simp only [MappingItem.target_range, MappingItem.source_range, Range.add,
    memB_iff]
  constructor
  · intro h
    exact ⟨w - q.difference, by omega, by omega⟩
  · rintro ⟨v, hv, rfl⟩
    omega

theorem target_start_mem {q : MappingItem}
    (h : q.source_range.isNonempty = true) :
    q.target_range.memB q.target_range.start = true := by
  simp only [MappingItem.target_range, MappingItem.source_range, Range.add,
    Range.isNonempty, memB_iff, decide_eq_true_eq] at h ⊢
  omega

theorem target_start_le {q : MappingItem} {w : Int}
    (h : q.target_range.memB w = true) : q.target_range.start ≤ w := by
  rw [memB_iff] at h
  exact h.1

/-- Converting every piece of `P` through one mapping transforms the set of
reachable target values exactly by `_convert_value`. -/
theorem applyMapping_values (P mapping : List MappingItem) (w : Int) :
    (∃ q ∈ P.flatMap (fun s => convert_range s mapping),
        q.target_range.memB w = true) ↔
      (∃ u, (∃ p ∈ P, p.target_range.memB u = true)
        ∧ w = convert_value u mapping) := by
  constructor
  · rintro ⟨q, hq, hw⟩
    obtain ⟨p, hp, hqp⟩ := List.mem_flatMap.mp hq
    obtain ⟨v, hv, rfl⟩ := target_exists.mp hw
    obtain ⟨spec1, spec2, -, -, -⟩ :=
      convert_range_spec (p.range.len).toNat p mapping le_rfl
    have hps := (spec1 v).mp ⟨q, hqp, hv⟩
    exact ⟨v + p.difference, ⟨p, hp, memB_target.mp hps⟩,
      spec2 q hqp v hv⟩
  · rintro ⟨u, ⟨p, hp, hu⟩, rfl⟩
    obtain ⟨v, hv, rfl⟩ := target_exists.mp hu
    obtain ⟨spec1, spec2, -, -, -⟩ :=
      convert_range_spec (p.range.len).toNat p mapping le_rfl
    obtain ⟨q, hq, hqv⟩ := (spec1 v).mpr hv
    exact ⟨q, List.mem_flatMap.mpr ⟨p, hp, hq⟩,
      target_exists.mpr ⟨v, hqv, (spec2 q hq v hqv).symm⟩⟩

theorem applyMapping_nonempty (P mapping : List MappingItem)
    (h : ∀ p ∈ P, p.source_range.isNonempty = true) :
    ∀ q ∈ P.flatMap (fun s => convert_range s mapping),
      q.source_range.isNonempty = true := by
  intro q hq
  obtain ⟨p, hp, hqp⟩ := List.mem_flatMap.mp hq
  exact (convert_range_spec (p.range.len).toNat p mapping le_rfl).2.2.1
    (h p hp) q hqp

theorem applyMapping_ne_nil (P mapping : List MappingItem) (h : P ≠ []) :
    P.flatMap (fun s => convert_range s mapping) ≠ [] := by
  cases P with
  | nil => cases h rfl
  | cons p rest =>
    rw [List.flatMap_cons]
    intro hc
    rcases List.append_eq_nil.mp hc with ⟨hc1, -⟩
    exact (convert_range_spec (p.range.len).toNat p mapping le_rfl).2.2.2.2 hc1

/-- Folding the whole chain of mappings over a list of seed ranges: the
reachable target values are exactly the `_convert_value`-folds of the initial
target values; non-emptiness of the pieces and of the list is preserved. -/
theorem fold_spec (mappings : List (List MappingItem)) :
    ∀ P : List MappingItem,
      (∀ w : Int,
        (∃ q ∈ mappings.foldl
            (fun acc mapping => acc.flatMap (fun s => convert_range s mapping))
            P,
          q.target_range.memB w = true) ↔
        (∃ u, (∃ p ∈ P, p.target_range.memB u = true)
          ∧ w = mappings.foldl (fun v mapping => convert_value v mapping) u))
      ∧ ((∀ p ∈ P, p.source_range.isNonempty = true) →
          ∀ q ∈ mappings.foldl
              (fun acc mapping =>
                acc.flatMap (fun s => convert_range s mapping)) P,
            q.source_range.isNonempty = true)
      ∧ (P ≠ [] →
          mappings.foldl
            (fun acc mapping =>
              acc.flatMap (fun s => convert_range s mapping)) P ≠ []) := by
  induction mappings with
  | nil =>
    intro P
    refine ⟨?_, fun h => h, fun h => h⟩
    intro w
    simp only [List.foldl_nil]
    constructor
    · rintro ⟨q, hq, hw⟩
      exact ⟨w, ⟨q, hq, hw⟩, rfl⟩
    · rintro ⟨u, hu, rfl⟩
      exact hu
  | cons mp ms ih =>
    intro P
    simp only [List.foldl_cons]
    obtain ⟨ihv, ihne, ihnil⟩ :=
      ih (P.flatMap (fun s => convert_range s mp))
    refine ⟨?_, ?_, ?_⟩
    · intro w
      rw [ihv w]
      constructor
      · rintro ⟨u, hu, rfl⟩
        obtain ⟨u0, hu0, rfl⟩ := (applyMapping_values P mp u).mp hu
        exact ⟨u0, hu0, rfl⟩
      · rintro ⟨u0, hu0, rfl⟩
        exact ⟨convert_value u0 mp,
          (applyMapping_values P mp _).mpr ⟨u0, hu0, rfl⟩, rfl⟩
    · intro hP
      exact ihne (applyMapping_nonempty P mp hP)
    · intro hP
      exact ihnil (applyMapping_ne_nil P mp hP)

theorem mem_seedList {s sz v : Int} :
    v ∈ seedList s sz ↔ (s ≤ v ∧ v < s + sz) := by
  unfold seedList
  rw [List.mem_map]
  constructor
  · rintro ⟨i, hi, rfl⟩
    rw [List.mem_range] at hi
    omega
  · intro h
    refine ⟨(v - s).toNat, ?_, by omega⟩
    rw [List.mem_range]
    omega

/-- The seed ranges of `part_2`, viewed as target-value sets, are exactly the
seed values enumerated by `part_2_naive`. -/
theorem P0_values {pairs : List (Int × Int)} {u : Int} :
    (∃ p ∈ pairs.map
        (fun p => (⟨Range.ofSize p.1 p.2, 0⟩ : MappingItem)),
      p.target_range.memB u = true) ↔
      ∃ pr ∈ pairs, u ∈ seedList pr.1 pr.2 := by
  simp only [List.mem_map]
  constructor
  · rintro ⟨p, ⟨pr, hpr, rfl⟩, hu⟩
    refine ⟨pr, hpr, ?_⟩
    simp only [MappingItem.target_range, Range.add, Range.ofSize,
      memB_iff] at hu
    rw [mem_seedList]
    omega
  · rintro ⟨pr, hpr, hu⟩
    refine ⟨⟨Range.ofSize pr.1 pr.2, 0⟩, ⟨pr, hpr, rfl⟩, ?_⟩
    rw [mem_seedList] at hu
    simp only [MappingItem.target_range, Range.add, Range.ofSize, memB_iff]
    omega

theorem P0_nonempty {pairs : List (Int × Int)}
    (hpos : ∀ p ∈ pairs, 0 < p.2) :
    ∀ p ∈ pairs.map
        (fun p => (⟨Range.ofSize p.1 p.2, 0⟩ : MappingItem)),
      p.source_range.isNonempty = true := by
  intro p hp
  obtain ⟨pr, hpr, rfl⟩ := List.mem_map.mp hp
  have := hpos pr hpr
  simp only [MappingItem.source_range, Range.ofSize, Range.isNonempty,
    decide_eq_true_eq]
  omega

end Day05

namespace Day05

/-- C1 (amended): on a well-formed day-5 document whose seed pairs all have
positive sizes (and whose mapping sections have pairwise-disjoint source
ranges), the range-based `part_2` agrees with the brute-force
`part_2_naive`. -/
theorem part_2_eq_part_2_naive (document : String)
    (mappings : List (List MappingItem)) (pairs : List (Int × Int))
    (hparse : parse_mappings (Strings.pySplit document.toList newline2)
      = some mappings)
    (hbat : batched2 (Strings.ints
      ((Strings.pySplit document.toList newline2).headD [])) = some pairs)
    (hpos : ∀ p ∈ pairs, 0 < p.2)
    (hdisj : ∀ mp ∈ mappings, List.Pairwise SourcesDisjoint mp) :
    part_2 document = part_2_naive document := by
  unfold part_2 part_2_naive
  simp only [hparse, hbat]
  obtain ⟨hvals, hne, -⟩ := fold_spec mappings
    (pairs.map (fun p => (⟨Range.ofSize p.1 p.2, 0⟩ : MappingItem)))
  apply min?_congr
  · intro x hx
    obtain ⟨q, hqF, rfl⟩ := List.mem_map.mp hx
    have hqne := hne (P0_nonempty hpos) q hqF
    have hqmem : q.target_range.memB q.target_range.start = true :=
      target_start_mem hqne
    obtain ⟨u, hu, hx⟩ := (hvals q.target_range.start).mp ⟨q, hqF, hqmem⟩
    obtain ⟨pr, hpr, hus⟩ := P0_values.mp hu
    exact ⟨_, List.mem_map.mpr ⟨u, List.mem_flatMap.mpr ⟨pr, hpr, hus⟩, rfl⟩,
      le_of_eq hx.symm⟩
  · intro y hy
    obtain ⟨seed, hseed, rfl⟩ := List.mem_map.mp hy
    obtain ⟨pr, hpr, hsl⟩ := List.mem_flatMap.mp hseed
    have hv0 := P0_values.mpr ⟨pr, hpr, hsl⟩
    obtain ⟨q, hqF, hqmem⟩ := (hvals _).mpr ⟨seed, hv0, rfl⟩
    exact ⟨q.target_range.start, List.mem_map.mpr ⟨q, hqF, rfl⟩,
      target_start_le hqmem⟩

/-- C1 counterexample: the well-formed document `"4 0 10 5\n\nm:\n20 30 5"`
(even number of seed integers; a single mapping section of full
`destination source size` triples with trivially disjoint source ranges) on
which `part_2` returns 4 while `part_2_naive` returns 10: the zero-sized
seed range `(4, 0)` survives range conversion and contributes its start to
the minimum of `part_2`, but contributes no seed at all to
`part_2_naive`. -/
theorem part_2_ne_part_2_naive :
    part_2 "4 0 10 5\n\nm:\n20 30 5" = some 4
    ∧ part_2_naive "4 0 10 5\n\nm:\n20 30 5" = some 10
    ∧ parse_mappings
        (Strings.pySplit ("4 0 10 5\n\nm:\n20 30 5").toList newline2)
        = some [[⟨⟨30, 35⟩, -10⟩]]
    ∧ batched2 (Strings.ints
        ((Strings.pySplit ("4 0 10 5\n\nm:\n20 30 5").toList
          newline2).headD []))
        = some [(4, 0), (10, 5)]
    ∧ (∀ mp ∈ [[(⟨⟨30, 35⟩, -10⟩ : MappingItem)]],
        List.Pairwise SourcesDisjoint mp) := by
  refine ⟨?_, by decide, by decide, by decide, by simp⟩
  have e1 : convert_range ⟨⟨4, 4⟩, 0⟩ [⟨⟨30, 35⟩, -10⟩] = [⟨⟨4, 4⟩, 0⟩] :=
    convert_range_eq_none (by decide)
  have e2 : convert_range ⟨⟨10, 15⟩, 0⟩ [⟨⟨30, 35⟩, -10⟩] =
      [⟨⟨10, 15⟩, 0⟩] :=
    convert_range_eq_none (by decide)
  have hsplit : Strings.pySplit ("4 0 10 5\n\nm:\n20 30 5").toList newline2 =
      ["4 0 10 5".toList, "m:\n20 30 5".toList] := by decide
  have hparse : parse_mappings ["4 0 10 5".toList, "m:\n20 30 5".toList] =
      some [[⟨⟨30, 35⟩, -10⟩]] := by decide
  have hbat : batched2 (Strings.ints "4 0 10 5".toList) =
      some [(4, 0), (10, 5)] := by decide
  simp only [part_2, hsplit, hparse, List.headD, hbat, List.map_cons,
    List.map_nil, List.foldl_cons, List.foldl_nil, List.flatMap_cons,
    List.flatMap_nil, Range.ofSize]
  norm_num [e1, e2, MappingItem.target_range, Range.add, List.min?]

/-- A closed instance of `part_2_eq_part_2_naive` on a concrete well-formed
document with positive seed sizes. -/
theorem part_2_eq_part_2_naive_witness :
    parse_mappings
        (Strings.pySplit ("1 2\n\nt:\n10 1 2").toList newline2)
        = some [[⟨⟨1, 3⟩, 9⟩]]
    ∧ batched2 (Strings.ints
        ((Strings.pySplit ("1 2\n\nt:\n10 1 2").toList newline2).headD []))
        = some [(1, 2)]
    ∧ (∀ p ∈ [((1 : Int), (2 : Int))], 0 < p.2)
    ∧ (∀ mp ∈ [[(⟨⟨1, 3⟩, 9⟩ : MappingItem)]],
        List.Pairwise SourcesDisjoint mp)
    ∧ part_2 "1 2\n\nt:\n10 1 2" = part_2_naive "1 2\n\nt:\n10 1 2" :=
  ⟨by decide, by decide, by decide, by simp,
    part_2_eq_part_2_naive "1 2\n\nt:\n10 1 2" [[⟨⟨1, 3⟩, 9⟩]] [(1, 2)]
      (by decide) (by decide) (by decide) (by simp)⟩

end Day05

namespace CommonMath

/-- Python's `pow(p, -1, m)` (for a positive modulus `m`): the unique inverse
of `p` modulo `m` in `[0, m)` when `gcd(p, m) = 1`, an exception (`none`)
otherwise.  Modelled as a search over `range(m)`, which returns exactly that
value. -/
def pyPowInv (p m : Int) : Option Int :=
  ((List.range m.toNat).map (fun (k : Nat) => (k : Int))).find?
    (fun k => decide (p * k % m = 1 % m))

/-- `a_i * p * pow(p, -1, n_i)` for one `(n_i, a_i)` pair, with
`p = n_prod // n_i` (`getD 0` is only ever read when `pyPowInv` succeeded). -/
def crtTerm (nprod : Int) (q : Int × Int) : Int :=
  q.2 * (nprod / q.1) * ((pyPowInv (nprod / q.1) q.1).getD 0)

/-- `chinese_remainder(n, a)`: `sum(...) % n_prod or n_prod`, where the `or`
replaces a zero remainder by `n_prod` itself; `none` models the exception
Python's `pow` raises when some modulus is not coprime with the others. -/
def chinese_remainder (n a : List Int) : Option Int :=
  match (n.zip a).mapM
      (fun q => (pyPowInv (n.prod / q.1) q.1).map
        (fun inv => q.2 * (n.prod / q.1) * inv)) with
  | none => none
  | some terms =>
    some (if terms.sum % n.prod = 0 then n.prod else terms.sum % n.prod)

theorem pyPowInv_spec {p m : Int} (hm : 0 < m) (hg : Int.gcd p m = 1) :
    ∃ k, pyPowInv p m = some k ∧ 0 ≤ k ∧ k < m ∧ p * k % m = 1 % m := by
  have hsome : (pyPowInv p m).isSome = true := by
    rw [pyPowInv, List.find?_isSome]
    refine ⟨Int.gcdA p m % m, ?_, ?_⟩
    · rw [List.mem_map]
      refine ⟨(Int.gcdA p m % m).toNat, ?_, ?_⟩
      · rw [List.mem_range]
        have h1 := Int.emod_nonneg (Int.gcdA p m) (by omega : m ≠ 0)
        have h2 := Int.emod_lt_of_pos (Int.gcdA p m) hm
        omega
      · have h1 := Int.emod_nonneg (Int.gcdA p m) (by omega : m ≠ 0)
        omega
    · rw [decide_eq_true_eq]
      have h1 : p * (Int.gcdA p m % m) ≡ p * Int.gcdA p m [ZMOD m] :=
        Int.ModEq.mul_left p (Int.emod_emod_of_dvd _ dvd_rfl)
      have h2 : p * Int.gcdA p m ≡ 1 [ZMOD m] := by
        rw [Int.modEq_iff_dvd]
        have hab := Int.gcd_eq_gcd_ab p m
        rw [hg] at hab
        exact ⟨Int.gcdB p m, by push_cast at hab; linarith⟩
      exact h1.trans h2
  obtain ⟨k, hk⟩ := Option.isSome_iff_exists.mp hsome
  refine ⟨k, hk, ?_, ?_, ?_⟩
  · have := List.mem_of_find?_eq_some hk
    rw [List.mem_map] at this
    obtain ⟨j, -, rfl⟩ := this
    positivity
  · have := List.mem_of_find?_eq_some hk
    rw [List.mem_map] at this
    obtain ⟨j, hj, rfl⟩ := this
    rw [List.mem_range] at hj
    omega
  · have := List.find?_some hk
    rwa [decide_eq_true_eq] at this

theorem split_prod {s t : List Int} {x : Int} (h0 : x ≠ 0) :
    (s ++ x :: t).prod / x = s.prod * t.prod := by
  rw [List.prod_append, List.prod_cons]
  have h : s.prod * (x * t.prod) = x * (s.prod * t.prod) := by ring
  rw [h, Int.mul_ediv_cancel_left _ h0]

theorem gcd_prod_eq_one {l : List Int} {x : Int}
    (h : ∀ y ∈ l, Int.gcd y x = 1) : Int.gcd l.prod x = 1 := by
  induction l with
  | nil => simp [Int.gcd]
  | cons hd tl ih =>
    rw [List.prod_cons, Int.gcd_eq_one_iff_coprime]
    exact IsCoprime.mul_left
      (Int.gcd_eq_one_iff_coprime.mp (h hd (List.mem_cons_self hd tl)))
      (Int.gcd_eq_one_iff_coprime.mp
        (ih fun y hy => h y (List.mem_cons_of_mem hd hy)))

/-- In a pairwise-coprime list of positive moduli, the product of all the
others is coprime with each member. -/
theorem gcd_prod_div {n : List Int} {x : Int} (hx : x ∈ n)
    (hpos : ∀ y ∈ n, 0 < y)
    (hcop : List.Pairwise (fun u v => Int.gcd u v = 1) n) :
    Int.gcd (n.prod / x) x = 1 := by
  obtain ⟨s, t, rfl⟩ := List.append_of_mem hx
  have hx0 : x ≠ 0 := by
    have := hpos x hx
    omega
  rw [split_prod hx0]
  rw [List.pairwise_append] at hcop
  obtain ⟨-, hxt, hst⟩ := hcop
  rw [List.pairwise_cons] at hxt
  obtain ⟨hxts, -⟩ := hxt
  rw [Int.gcd_eq_one_iff_coprime]
  refine IsCoprime.mul_left ?_ ?_
  · rw [← Int.gcd_eq_one_iff_coprime]
    exact gcd_prod_eq_one fun y hy =>
      hst y hy x (List.mem_cons_self x t)
  · rw [← Int.gcd_eq_one_iff_coprime]
    exact gcd_prod_eq_one fun y hy => by
      rw [Int.gcd_comm]
      exact hxts y hy

theorem dvd_prod_div {n : List Int} {x y : Int}
    (h : ∃ s t, n = s ++ x :: t ∧ y ∈ s ++ t) (h0 : x ≠ 0) :
    y ∣ n.prod / x := by
  obtain ⟨s, t, rfl, hy⟩ := h
  rw [split_prod h0]
  rcases List.mem_append.mp hy with hy | hy
  · exact (List.dvd_prod hy).mul_right _
  · exact (List.dvd_prod hy).mul_left _

theorem crtTerm_dvd {nprod : Int} {q : Int × Int} {y : Int}
    (hd : y ∣ nprod / q.1) : y ∣ crtTerm nprod q := by
  unfold crtTerm
  exact ((hd.mul_left q.2).mul_right _)

end CommonMath

namespace CommonMath

theorem mapM_option_eq_map {α β : Type} (F : α → Option β) (g : α → β) :
    ∀ xs : List α, (∀ x ∈ xs, F x = some (g x)) →
      xs.mapM F = some (xs.map g) := by
  intro xs
  rw [← List.mapM'_eq_mapM]
  induction xs with
  | nil => intro _; rfl
  | cons hd tl ih =>
    intro h
    rw [List.mapM', h hd (List.mem_cons_self hd tl),
      ih (fun x hx => h x (List.mem_cons_of_mem hd hx))]
    rfl

/-- The congruence `Σ terms ≡ a_j (mod n_j)` for one index `j`. -/
theorem crt_sum_cong {n a : List Int} (hlen : n.length = a.length)
    (hpos : ∀ x ∈ n, 0 < x)
    (hcop : List.Pairwise (fun x y => Int.gcd x y = 1) n)
    (i : Fin n.length) :
    Int.ModEq (n.get i) (((n.zip a).map (crtTerm n.prod)).sum)
      (a.get (Fin.cast hlen i)) := by
  have hZlen : (n.zip a).length = n.length := by
    rw [List.length_zip, hlen, min_self]
  have hiZ : (i : Nat) < (n.zip a).length := by rw [hZlen]; exact i.2
  have hn : n = (n.zip a).map Prod.fst :=
    (List.map_fst_zip n a (le_of_eq hlen)).symm
  have hZi : (n.zip a)[(i : Nat)] = (n.get i, a.get (Fin.cast hlen i)) := by
    rw [List.getElem_zip]
    simp [List.get_eq_getElem]
  have hsplit : n.zip a =
      (n.zip a).take i ++ (n.zip a)[(i : Nat)] :: (n.zip a).drop (i + 1) := by
    conv_lhs => rw [← List.take_append_drop i (n.zip a)]
    congr 1
    rw [List.getElem_cons_drop]
  -- the modulus divides every term built from another pair
  have hdvd_term : ∀ q' ∈ (n.zip a).take i ++ (n.zip a).drop (i + 1),
      n.get i ∣ crtTerm n.prod q' := by
    intro q' hq'
    have hq'Z : q' ∈ n.zip a := by
      rcases List.mem_append.mp hq' with h | h
      · exact List.mem_of_mem_take h
      · exact List.mem_of_mem_drop h
    have hq'1 : q'.1 ∈ n := (List.of_mem_zip hq'Z).1
    have hq'pos := hpos q'.1 hq'1
    apply crtTerm_dvd
    apply dvd_prod_div ?_ (by omega : q'.1 ≠ 0)
    rcases List.mem_append.mp hq' with h | h
    · -- q' before position i: n.get i lies in the tail part
      obtain ⟨u1, u2, hu⟩ := List.append_of_mem h
      refine ⟨u1.map Prod.fst,
        u2.map Prod.fst ++ ((n.zip a).drop i).map Prod.fst, ?_, ?_⟩
      · conv_lhs => rw [hn, ← List.take_append_drop i (n.zip a)]
        rw [hu]
        simp [List.map_append]
      · apply List.mem_append.mpr
        right
        apply List.mem_append.mpr
        right
        rw [← List.getElem_cons_drop (n.zip a) i hiZ]
        rw [List.map_cons, hZi]
        exact List.mem_cons_self _ _
    · -- q' after position i: n.get i lies in the front part
      obtain ⟨u1, u2, hu⟩ := List.append_of_mem h
      refine ⟨((n.zip a).take (i + 1)).map Prod.fst ++ u1.map Prod.fst,
        u2.map Prod.fst, ?_, ?_⟩
      · conv_lhs => rw [hn, ← List.take_append_drop (i + 1) (n.zip a)]
        rw [hu]
        simp [List.map_append]
      · apply List.mem_append.mpr
        left
        apply List.mem_append.mpr
        left
        rw [List.mem_map]
        refine ⟨(n.zip a)[(i : Nat)], ?_, by rw [hZi]⟩
        have hlt : (i : Nat) < ((n.zip a).take (i + 1)).length := by
          rw [List.length_take]
          omega
        have := List.getElem_mem hlt
        rwa [List.getElem_take] at this
  -- the term at position i is congruent to `a_i`
  have hterm : Int.ModEq (n.get i)
      (crtTerm n.prod ((n.zip a)[(i : Nat)])) (a.get (Fin.cast hlen i)) := by
    rw [hZi]
    have hgetmem : n.get i ∈ n := by
      rw [List.get_eq_getElem]
      exact List.getElem_mem i.2
    have hg := gcd_prod_div hgetmem hpos hcop
    have hgpos := hpos _ hgetmem
    obtain ⟨k, hk, -, -, hkinv⟩ := pyPowInv_spec hgpos hg
    unfold crtTerm
    rw [hk]
    simp only [Option.getD_some]
    have h1 : Int.ModEq (n.get i) ((n.prod / n.get i) * k) 1 := hkinv
    calc a.get (Fin.cast hlen i) * (n.prod / n.get i) * k
        = a.get (Fin.cast hlen i) * ((n.prod / n.get i) * k) := by ring
      _ ≡ a.get (Fin.cast hlen i) * 1 [ZMOD n.get i] :=
          Int.ModEq.mul_left _ h1
      _ = a.get (Fin.cast hlen i) := by ring
  -- assemble
  conv_lhs => rw [hsplit]
  rw [List.map_append, List.map_cons, List.sum_append, List.sum_cons]
  have h1 : Int.ModEq (n.get i)
      ((((n.zip a).take i).map (crtTerm n.prod)).sum) 0 := by
    rw [Int.modEq_zero_iff_dvd]
    apply List.dvd_sum
    intro x hx
    obtain ⟨q', hq', rfl⟩ := List.mem_map.mp hx
    exact hdvd_term q' (List.mem_append.mpr (Or.inl hq'))
  have h2 : Int.ModEq (n.get i)
      ((((n.zip a).drop (i + 1)).map (crtTerm n.prod)).sum) 0 := by
    rw [Int.modEq_zero_iff_dvd]
    apply List.dvd_sum
    intro x hx
    obtain ⟨q', hq', rfl⟩ := List.mem_map.mp hx
    exact hdvd_term q' (List.mem_append.mpr (Or.inr hq'))
  have := h1.add (hterm.add h2)
  simpa using this

end CommonMath

namespace CommonMath

/-- C5: for equal-length lists with positive pairwise-coprime moduli,
`chinese_remainder` returns an `x` with `1 ≤ x ≤ prod(n)` that satisfies
every congruence `x ≡ a_i (mod n_i)`. -/
theorem chinese_remainder_correct (n a : List Int)
    (hlen : n.length = a.length)
    (hpos : ∀ x ∈ n, 0 < x)
    (hcop : List.Pairwise (fun x y => Int.gcd x y = 1) n) :
    ∃ x, chinese_remainder n a = some x ∧ 1 ≤ x ∧ x ≤ n.prod ∧
      ∀ i : Fin n.length,
        Int.ModEq (n.get i) x (a.get (Fin.cast hlen i)) := by
  have hN : 0 < n.prod := List.prod_pos hpos
  have hF : ∀ q ∈ n.zip a,
      (pyPowInv (n.prod / q.1) q.1).map
        (fun inv => q.2 * (n.prod / q.1) * inv) = some (crtTerm n.prod q) := by
    intro q hq
    have hq1 : q.1 ∈ n := (List.of_mem_zip hq).1
    have hq1pos := hpos q.1 hq1
    have hg := gcd_prod_div hq1 hpos hcop
    obtain ⟨k, hk, -, -, -⟩ := pyPowInv_spec hq1pos hg
    rw [hk]
    unfold crtTerm
    rw [hk]
    rfl
  have hmapM := mapM_option_eq_map _ (crtTerm n.prod) (n.zip a) hF
  unfold chinese_remainder
  rw [hmapM]
  refine ⟨_, rfl, ?_, ?_, ?_⟩
  · split
    · omega
    · rename_i hr
      have := Int.emod_nonneg (((n.zip a).map (crtTerm n.prod)).sum)
        (by omega : n.prod ≠ 0)
      omega
  · split
    · exact le_refl _
    · have := Int.emod_lt_of_pos (((n.zip a).map (crtTerm n.prod)).sum) hN
      omega
  · intro i
    have hxS : Int.ModEq n.prod
        (if ((n.zip a).map (crtTerm n.prod)).sum % n.prod = 0 then n.prod
          else ((n.zip a).map (crtTerm n.prod)).sum % n.prod)
        (((n.zip a).map (crtTerm n.prod)).sum) := by
      split
      · rename_i hr
        show n.prod % n.prod = ((n.zip a).map (crtTerm n.prod)).sum % n.prod
        rw [Int.emod_self, hr]
      · show ((n.zip a).map (crtTerm n.prod)).sum % n.prod % n.prod
            = ((n.zip a).map (crtTerm n.prod)).sum % n.prod
        exact Int.emod_emod_of_dvd _ dvd_rfl
    have hdvd : n.get i ∣ n.prod := by
      apply List.dvd_prod
      rw [List.get_eq_getElem]
      exact List.getElem_mem i.2
    exact (hxS.of_dvd hdvd).trans (crt_sum_cong hlen hpos hcop i)

/-- A closed instance of `chinese_remainder_correct` at `n = [3, 5, 7]`,
`a = [2, 3, 2]` (the classical example: `x = 23`). -/
theorem chinese_remainder_correct_witness :
    ([3, 5, 7] : List Int).length = ([2, 3, 2] : List Int).length
    ∧ (∀ x ∈ ([3, 5, 7] : List Int), 0 < x)
    ∧ List.Pairwise (fun x y => Int.gcd x y = 1) ([3, 5, 7] : List Int)
    ∧ ∃ x, chinese_remainder [3, 5, 7] [2, 3, 2] = some x ∧ 1 ≤ x
        ∧ x ≤ ([3, 5, 7] : List Int).prod
        ∧ ∀ i : Fin ([3, 5, 7] : List Int).length,
            Int.ModEq (([3, 5, 7] : List Int).get i) x
              (([2, 3, 2] : List Int).get (Fin.cast (by decide) i)) :=
  ⟨by decide, by decide, by decide,
    chinese_remainder_correct [3, 5, 7] [2, 3, 2] (by decide) (by decide)
      (by decide)⟩

end CommonMath

namespace Day09

/-- `[y - x for x, y in itertools.pairwise(values)]`. -/
def diffs (values : List Int) : List Int :=
  List.zipWith (fun x y => y - x) values values.tail

/-- `extrapolate`, with an explicit recursion-depth budget (`fuel`) so that
the unbounded Python recursion is modelled totally: `none` means the budget
was exhausted; `not any(values)` is the all-zero (or empty) base case
returning 0; otherwise recurse on the pairwise differences and combine with
the last (`back=False`) or first (`back=True`) element. -/
def extrapolate (fuel : Nat) (values : List Int) (back : Bool) : Option Int :=
  match fuel with
  | 0 => none
  | fuel + 1 =>
    if values.all (fun v => v == 0) then some 0
    else
      match extrapolate fuel (diffs values) back with
      | none => none
      | some e =>
        some (if back then values.headD 0 - e else values.getLastD 0 + e)

theorem diffs_length {values : List Int} :
    (diffs values).length = values.length - 1 := by
  cases values with
  | nil => rfl
  | cons h t => simp [diffs]

/-- C7: `extrapolate` terminates on every list: a recursion budget of
`length + 1` always suffices (each recursive call operates on the strictly
shorter list of pairwise differences), and any positive budget returns 0 as
soon as the list contains no non-zero value — including the empty list. -/
theorem extrapolate_terminates (values : List Int) (back : Bool) :
    ((extrapolate (values.length + 1) values back).isSome = true)
    ∧ (values ≠ [] → (diffs values).length < values.length)
    ∧ (∀ fuel, 0 < fuel → values.all (fun v => v == 0) = true →
        extrapolate fuel values back = some 0) := by
  refine ⟨?_, ?_, ?_⟩
  · have main : ∀ fuel (vs : List Int), vs.length < fuel →
        (extrapolate fuel vs back).isSome = true := by
      intro fuel
      induction fuel with
      | zero => intro vs h; omega
      | succ fuel ih =>
        intro vs h
        unfold extrapolate
        split
        · rfl
        · rename_i hnz
          have hne : vs ≠ [] := by
            intro hc
            subst hc
            simp at hnz
          have hlt : (diffs vs).length < fuel := by
            rw [diffs_length]
            have : 0 < vs.length := List.length_pos.mpr hne
            omega
          have := ih (diffs vs) hlt
          match hrec : extrapolate fuel (diffs vs) back with
          | none => rw [hrec] at this; cases this
          | some e => simp
    exact main (values.length + 1) values (by omega)
  · intro hne
    rw [diffs_length]
    have : 0 < values.length := List.length_pos.mpr hne
    omega
  · intro fuel hf hz
    match fuel, hf with
    | fuel + 1, _ =>
      unfold extrapolate
      rw [hz]
      rfl

/-- A closed instance of `extrapolate_terminates` at `[1, 2, 3]`. -/
theorem extrapolate_terminates_witness :
    ((extrapolate (([1, 2, 3] : List Int).length + 1) [1, 2, 3] false).isSome
      = true)
    ∧ (([1, 2, 3] : List Int) ≠ [] →
        (diffs [1, 2, 3]).length < ([1, 2, 3] : List Int).length)
    ∧ (∀ fuel, 0 < fuel →
        ([1, 2, 3] : List Int).all (fun v => v == 0) = true →
        extrapolate fuel [1, 2, 3] false = some 0) :=
  extrapolate_terminates [1, 2, 3] false

end Day09

namespace Day20

/-- The two signal singletons `Low` and `High`. -/
inductive Signal where
  | low
  | high
deriving DecidableEq

/-- The concrete module classes of day20.py.  `plain` is the base `Module`
class (used for undefined outputs such as `rx`), the others override
`receive`. -/
inductive ModuleKind where
  | plain
  | flipflop
  | conjunction
  | broadcaster
  | button
deriving DecidableEq

/-- The static wiring produced by `build_modules`: the class of each module,
its outputs (`add_output` order) and its inputs (the wired senders a
`Conjunction` initialises its memory with). -/
structure Network where
  kind : String → ModuleKind
  outputs : String → List String
  inputs : String → List String

/-- The mutable state of the module objects: each flip-flop's `state`
attribute (class default `False`), each conjunction's `memory` dict (values),
and the insertion-ordered key list of each conjunction's `memory` dict. -/
structure SimState where
  flip : String → Bool
  mem : String → String → Signal
  memKeys : String → List String

/-- The state right after `build_modules`: all flip-flops off, every
conjunction remembering a `Low` pulse for each of its wired inputs. -/
def initState (net : Network) : SimState :=
  { flip := fun _ => false
    mem := fun _ _ => Signal.low
    memKeys := net.inputs }

/-- `Module.receive` and its overrides: the optional signal to send and the
updated object state. -/
def receive (net : Network) (self sender : String) (sig : Signal)
    (st : SimState) : Option Signal × SimState :=
  match net.kind self with
  | .plain => (none, st)
  | .broadcaster => (some sig, st)
  | .button => (some Signal.low, st)
  | .flipflop =>
    match sig with
    | .low =>
      let ns := !(st.flip self)
      (some (if ns then Signal.high else Signal.low),
        { st with flip := fun nm => if nm = self then ns else st.flip nm })
    | .high => (none, st)
  | .conjunction =>
    let keys :=
      if sender ∈ st.memKeys self then st.memKeys self
      else st.memKeys self ++ [sender]
    let mem := fun nm snd =>
      if nm = self then (if snd = sender then sig else st.mem nm snd)
      else st.mem nm snd
    let st := { st with
      mem := mem
      memKeys := fun nm => if nm = self then keys else st.memKeys nm }
    if keys.all (fun k => mem self k == Signal.high) then
      (some Signal.low, st)
    else (some Signal.high, st)

/-- `Module.handle`: receive the signal, and send the resulting signal (if
any) to every output, as `(sender, receiver, signal)` tuples. -/
def handle (net : Network) (self sender : String) (sig : Signal)
    (st : SimState) : List (String × String × Signal) × SimState :=
  match receive net self sender sig st with
  | (none, st) => ([], st)
  | (some s, st) => ((net.outputs self).map (fun o => (self, o, s)), st)

/-- `Button.press`: `self.handle(self, Low)` for the button module. -/
def press (net : Network) (st : SimState) :
    List (String × String × Signal) × SimState :=
  handle net "button" "button" Signal.low st

/-- The `while signals:` loop of `handle_signals`: pop the front pulse,
yield it, process it with the receiver's `handle` and append the produced
pulses at the back of the queue.  `fuel` bounds the number of iterations
(the Python loop can run forever on an adversarial network). -/
def handle_signals_run (net : Network) :
    Nat → List (String × String × Signal) → SimState →
      List (String × String × Signal)
  | 0, _, _ => []
  | _ + 1, [], _ => []
  | fuel + 1, p :: rest, st =>
    match handle net p.2.1 p.1 p.2.2 st with
    | (new, st) => p :: handle_signals_run net fuel (rest ++ new) st

/-- `handle_signals(button)`: press the button and process all resulting
pulses in FIFO order. -/
def handle_signals (net : Network) (fuel : Nat) (st : SimState) :
    List (String × String × Signal) :=
  match press net st with
  | (q0, st0) => handle_signals_run net fuel q0 st0

theorem handle_signals_run_take :
    ∀ (net : Network) (fuel : Nat) (q : List (String × String × Signal))
      (st : SimState) (k : Nat), k ≤ q.length → k ≤ fuel →
      (handle_signals_run net fuel q st).take k = q.take k := by
  intro net fuel
  induction fuel with
  | zero =>
    intro q st k hk hf
    have : k = 0 := by omega
    subst this
    simp
  | succ fuel ih =>
    intro q st k hk hf
    match q, k with
    | [], _ =>
      simp at hk
      subst hk
      simp
    | _ :: _, 0 => simp
    | p :: rest, k + 1 =>
      unfold handle_signals_run
      simp only [List.length_cons] at hk
      rw [List.take_succ_cons]
      match handle net p.2.1 p.1 p.2.2 st with
      | (new, st') =>
        simp only [List.take_succ_cons]
        rw [ih (rest ++ new) st' k
          (by rw [List.length_append]; omega) (by omega)]
        rw [List.take_append_of_le_length (by omega)]

end Day20

namespace Day20

/-- C6: `handle_signals` is strictly FIFO.  Every pulse already pending in
the queue is yielded, in queue order, before any pulse generated by
processing (generated pulses are appended behind all pending ones, so they
appear at positions at or after the old queue length); and the run starts
from the single `Low` pulse of the button press when the button's only
output is the broadcaster. -/
theorem handle_signals_fifo (net : Network) :
    (∀ (fuel : Nat) (q : List (String × String × Signal)) (st : SimState),
      q.length ≤ fuel →
        (handle_signals_run net fuel q st).take q.length = q)
    ∧ (∀ st : SimState, net.kind "button" = ModuleKind.button →
        net.outputs "button" = ["broadcaster"] →
        (press net st).1 = [("button", "broadcaster", Signal.low)])
    ∧ (∀ (fuel : Nat) (st : SimState),
        net.kind "button" = ModuleKind.button →
        net.outputs "button" = ["broadcaster"] → 1 ≤ fuel →
        (handle_signals net fuel st).take 1
          = [("button", "broadcaster", Signal.low)]) := by
  have hpress : ∀ st : SimState, net.kind "button" = ModuleKind.button →
      net.outputs "button" = ["broadcaster"] →
      (press net st).1 = [("button", "broadcaster", Signal.low)] := by
    intro st hk hout
    unfold press handle receive
    rw [hk, hout]
    rfl
  refine ⟨?_, hpress, ?_⟩
  · intro fuel q st hq
    have := handle_signals_run_take net fuel q st q.length (le_refl _) hq
    rwa [List.take_length] at this
  · intro fuel st hk hout hf
    unfold handle_signals
    have hp := hpress st hk hout
    match hpr : press net st with
    | (q0, st0) =>
      rw [hpr] at hp
      simp only at hp
      subst hp
      have := handle_signals_run_take net fuel
        [("button", "broadcaster", Signal.low)] st0 1 (by simp) (by omega)
      simpa using this

/-- A two-module network (a button wired to the broadcaster) used to
instantiate the FIFO theorem. -/
def demoNet : Network :=
  { kind := fun nm =>
      if nm = "button" then ModuleKind.button
      else if nm = "broadcaster" then ModuleKind.broadcaster
      else ModuleKind.plain
    outputs := fun nm => if nm = "button" then ["broadcaster"] else []
    inputs := fun _ => [] }

/-- A closed instance of `handle_signals_fifo` on `demoNet`, with a concrete
pending queue of length two and budget three. -/
theorem handle_signals_fifo_witness :
    (([("a", "b", Signal.low), ("c", "d", Signal.high)] :
        List (String × String × Signal)).length ≤ 3)
    ∧ ((handle_signals_run demoNet 3
          [("a", "b", Signal.low), ("c", "d", Signal.high)]
          (initState demoNet)).take
        ([("a", "b", Signal.low), ("c", "d", Signal.high)] :
          List (String × String × Signal)).length
        = [("a", "b", Signal.low), ("c", "d", Signal.high)])
    ∧ demoNet.kind "button" = ModuleKind.button
    ∧ demoNet.outputs "button" = ["broadcaster"]
    ∧ (press demoNet (initState demoNet)).1
        = [("button", "broadcaster", Signal.low)]
    ∧ (1 : Nat) ≤ 2
    ∧ (handle_signals demoNet 2 (initState demoNet)).take 1
        = [("button", "broadcaster", Signal.low)] :=
  ⟨by decide,
    (handle_signals_fifo demoNet).1 3
      [("a", "b", Signal.low), ("c", "d", Signal.high)]
      (initState demoNet) (by decide),
    rfl, rfl,
    (handle_signals_fifo demoNet).2.1 (initState demoNet) rfl rfl,
    by decide,
    (handle_signals_fifo demoNet).2.2 2 (initState demoNet) rfl rfl
      (by decide)⟩

end Day20

namespace CommonGrid

/-- The `Grid` class of common/grid.py: a sequence of rows.  Coordinates are
Gaussian integers in the source (`complex(x, y)`); claims only involve
integer coordinates, modelled as a pair `(x, y) : Int × Int` with
`real = x`, `imag = y`. -/
structure Grid (α : Type) where
  rows : List (List α)

/-- `height`: `len(self._grid)`. -/
def Grid.height {α : Type} (g : Grid α) : Nat := g.rows.length

/-- `width`: `len(self._grid[0]) if self._grid else 0`. -/
def Grid.width {α : Type} (g : Grid α) : Nat := (g.rows.headD []).length

/-- `in_bounds`: `0 <= imag < height and 0 <= real < width`. -/
def Grid.in_bounds {α : Type} (g : Grid α) (x y : Int) : Bool :=
  decide (0 ≤ y ∧ y < (g.height : Int)) && decide (0 ≤ x ∧ x < (g.width : Int))

/-- Python sequence indexing `l[i]`: non-negative indices from the front,
negative indices from the back, `IndexError` (`none`) outside `[-len, len)`. -/
def pyIndex {α : Type} (l : List α) (i : Int) : Option α :=
  if 0 ≤ i then l.get? i.toNat
  else if 0 ≤ i + l.length then l.get? (i + l.length).toNat
  else none

/-- `get`: `self._grid[int(coordinate.imag)][int(coordinate.real)]` — no
bounds check of its own, only Python's sequence indexing. -/
def Grid.get {α : Type} (g : Grid α) (x y : Int) : Option α :=
  (pyIndex g.rows y).bind (fun row => pyIndex row x)

/-- `orthogonal`: the in-bounds neighbours in directions
`(+1, -1, -1j, +1j)`. -/
def Grid.orthogonal {α : Type} (g : Grid α) (x y : Int) : List (Int × Int) :=
  [(x + 1, y), (x - 1, y), (x, y - 1), (x, y + 1)].filter
    (fun c => g.in_bounds c.1 c.2)

/-- `diagonal`: the in-bounds neighbours in directions
`(+1+1j, -1+1j, +1-1j, -1+1j)` — exactly as written in the source, where
`-1+1j` appears twice and `-1-1j` does not appear. -/
def Grid.diagonal {α : Type} (g : Grid α) (x y : Int) : List (Int × Int) :=
  [(x + 1, y + 1), (x - 1, y + 1), (x + 1, y - 1), (x - 1, y + 1)].filter
    (fun c => g.in_bounds c.1 c.2)

/-- `adjacent`: all orthogonal then all diagonal neighbours. -/
def Grid.adjacent {α : Type} (g : Grid α) (x y : Int) : List (Int × Int) :=
  g.orthogonal x y ++ g.diagonal x y

/-- A concrete 3×3 grid. -/
def grid3 : Grid Char :=
  ⟨[['a', 'b', 'c'], ['d', 'e', 'f'], ['g', 'h', 'i']]⟩

/-- C9: `adjacent` does NOT yield the eight distinct neighbours of an
interior coordinate once each.  On a 3×3 grid at the interior coordinate
`(1, 1)` — all eight surrounding cells in bounds — it yields eight
coordinates, but the upper-left diagonal neighbour `(0, 0)` never appears
while `(0, 2)` appears twice: the direction tuple of `diagonal` lists
`-1+1j` twice and omits `-1-1j`, contradicting its docstring "Yields all
diagonal directions". -/
theorem adjacent_misses_one_diagonal :
    (∀ dx ∈ ([-1, 0, 1] : List Int), ∀ dy ∈ ([-1, 0, 1] : List Int),
      grid3.in_bounds (1 + dx) (1 + dy) = true)
    ∧ (grid3.adjacent 1 1).length = 8
    ∧ (grid3.adjacent 1 1).count (0, 0) = 0
    ∧ (grid3.adjacent 1 1).count (0, 2) = 2
    ∧ (0, 0) ∉ grid3.adjacent 1 1 := by
  refine ⟨by decide, by decide, by decide, by decide, by decide⟩

/-- A ragged grid: two rows of different lengths. -/
def raggedGrid : Grid Char := ⟨[['a', 'b'], ['c']]⟩

/-- C10 counterexample: the claim fails on a ragged grid.  `raggedGrid` has
`width = 2` and `height = 2`, the coordinate `(1, 1)` satisfies
`-width ≤ x < width` and `-height ≤ y < height`, yet `get` fails (`none`,
an `IndexError` in Python) because row 1 is shorter than row 0. -/
theorem get_fails_inside_band_on_ragged_grid :
    raggedGrid.width = 2
    ∧ raggedGrid.height = 2
    ∧ (-2 ≤ (1 : Int) ∧ (1 : Int) < 2)
    ∧ raggedGrid.get 1 1 = none := by
  refine ⟨rfl, rfl, by decide, rfl⟩

theorem get?_isSome_iff {α : Type} {l : List α} {n : Nat} :
    (l.get? n).isSome = true ↔ n < l.length := by
  rw [List.get?_eq_getElem?, Option.isSome_iff_exists]
  constructor
  · rintro ⟨a, ha⟩
    exact (List.getElem?_eq_some.mp ha).1
  · intro h
    exact ⟨l[n], List.getElem?_eq_some.mpr ⟨h, rfl⟩⟩

theorem pyIndex_isSome_iff {α : Type} {l : List α} {i : Int} :
    (pyIndex l i).isSome = true ↔ (-(l.length : Int) ≤ i ∧ i < l.length) := by
  unfold pyIndex
  split
  · rw [get?_isSome_iff]
    omega
  · split
    · rw [get?_isSome_iff]
      omega
    · simp
      omega

theorem pyIndex_neg {α : Type} {l : List α} {i : Int} (hneg : i < 0)
    (hband : -(l.length : Int) ≤ i) :
    pyIndex l i = pyIndex l (i + l.length) := by
  unfold pyIndex
  rw [if_neg (show ¬ 0 ≤ i by omega),
    if_pos (show 0 ≤ i + (l.length : Int) by omega),
    if_pos (show 0 ≤ i + (l.length : Int) by omega)]

end CommonGrid

namespace CommonGrid

theorem pyIndex_mem {α : Type} {l : List α} {i : Int} {a : α}
    (h : pyIndex l i = some a) : a ∈ l := by
  unfold pyIndex at h
  split at h
  · exact List.get?_mem h
  · split at h
    · exact List.get?_mem h
    · cases h

/-- C10 (amended): for every rectangular grid (all rows of length `width`),
`get` succeeds exactly on the wide band `-width ≤ x < width`,
`-height ≤ y < height` — performing no bounds check of its own, so it also
succeeds on the negative coordinates `in_bounds` rejects, selecting
Python-style from the end of the row or column — and only coordinates
outside that band make it fail. -/
theorem get_wide_band {α : Type} (g : Grid α)
    (hrect : ∀ row ∈ g.rows, row.length = g.width) (x y : Int) :
    ((g.get x y).isSome = true ↔
      (-(g.width : Int) ≤ x ∧ x < g.width
        ∧ -(g.height : Int) ≤ y ∧ y < g.height))
    ∧ (x < 0 → -(g.width : Int) ≤ x →
        g.get x y = g.get (x + g.width) y)
    ∧ (y < 0 → -(g.height : Int) ≤ y →
        g.get x y = g.get x (y + g.height))
    ∧ (g.in_bounds x y = true → (g.get x y).isSome = true) := by
  have hh : g.rows.length = g.height := rfl
  refine ⟨?_, ?_, ?_, ?_⟩
  · unfold Grid.get
    cases hrow : pyIndex g.rows y with
    | none =>
      have hy : ¬ (-(g.height : Int) ≤ y ∧ y < g.height) := by
        intro hc
        have := pyIndex_isSome_iff.mpr (by rw [hh]; exact hc)
        rw [hrow] at this
        cases this
      simp only [Option.none_bind, Option.isSome_none]
      constructor
      · intro hc
        cases hc
      · intro hc
        exact absurd ⟨hc.2.2.1, hc.2.2.2⟩ hy
    | some row =>
      have hy : -(g.height : Int) ≤ y ∧ y < g.height := by
        have : (pyIndex g.rows y).isSome = true := by rw [hrow]; rfl
        rw [pyIndex_isSome_iff, hh] at this
        exact this
      have hrw : row.length = g.width := hrect row (pyIndex_mem hrow)
      simp only [Option.some_bind]
      rw [pyIndex_isSome_iff, hrw]
      constructor
      · intro hc
        exact ⟨hc.1, hc.2, hy.1, hy.2⟩
      · intro hc
        exact ⟨hc.1, hc.2.1⟩
  · intro hx hxb
    unfold Grid.get
    cases hrow : pyIndex g.rows y with
    | none => rfl
    | some row =>
      have hrw : row.length = g.width := hrect row (pyIndex_mem hrow)
      simp only [Option.some_bind]
      rw [pyIndex_neg hx (by rw [hrw]; exact hxb), hrw]
  · intro hy hyb
    unfold Grid.get
    rw [pyIndex_neg hy (by rw [hh]; exact hyb), hh]
  · intro hb
    unfold Grid.in_bounds at hb
    rw [Bool.and_eq_true, decide_eq_true_eq, decide_eq_true_eq] at hb
    unfold Grid.get
    cases hrow : pyIndex g.rows y with
    | none =>
      have := pyIndex_isSome_iff.mpr
        (show -(g.rows.length : Int) ≤ y ∧ y < g.rows.length by
          rw [hh]; omega)
      rw [hrow] at this
      cases this
    | some row =>
      have hrw : row.length = g.width := hrect row (pyIndex_mem hrow)
      simp only [Option.some_bind]
      rw [pyIndex_isSome_iff, hrw]
      omega

/-- A rectangular 2×2 grid. -/
def rect2 : Grid Char := ⟨[['a', 'b'], ['c', 'd']]⟩

/-- A closed instance of `get_wide_band` on a rectangular 2×2 grid at the
negative coordinate `(-1, 0)` (out of `in_bounds`, inside the wide band). -/
theorem get_wide_band_witness :
    (∀ row ∈ rect2.rows, row.length = rect2.width)
    ∧ (((rect2.get (-1) 0).isSome = true ↔
        (-(rect2.width : Int) ≤ -1 ∧ (-1 : Int) < rect2.width
          ∧ -(rect2.height : Int) ≤ 0 ∧ (0 : Int) < rect2.height))
      ∧ ((-1 : Int) < 0 → -(rect2.width : Int) ≤ -1 →
          rect2.get (-1) 0 = rect2.get (-1 + rect2.width) 0)
      ∧ ((0 : Int) < 0 → -(rect2.height : Int) ≤ 0 →
          rect2.get (-1) 0 = rect2.get (-1) (0 + rect2.height))
      ∧ (rect2.in_bounds (-1) 0 = true → (rect2.get (-1) 0).isSome = true)) :=
  ⟨by decide, get_wide_band rect2 (by decide) (-1) 0⟩

end CommonGrid

namespace Run

/-- The type hints `run_function` compares the first parameter's type hint
against, plus a catch-all for every other hint. -/
inductive ParamType where
  | listStr
  | plainStr
  | gridStr
  | frozenGridStr
  | repeatingGridStr
  | unknown
deriving DecidableEq

/-- The argument shapes a solution function can be called with: split lines,
the raw string, or the split lines wrapped in `Grid` / `FrozenGrid` /
`RepeatingGrid`. -/
inductive CallShape where
  | ofLines (lines : List (List Char))
  | ofRaw (raw : List Char)
  | ofGrid (g : CommonGrid.Grid Char)
  | ofFrozenGrid (g : CommonGrid.Grid Char)
  | ofRepeatingGrid (g : CommonGrid.Grid Char)

/-- The grid wrapper built by `run_function`: `Grid(data.splitlines())`
(rows are the lines; a row of a string grid is its characters). -/
def gridOf (data : List Char) : CommonGrid.Grid Char :=
  ⟨Strings.pySplitlines data⟩

/-- `run_function`: inspect the first parameter's type hint and call the
function with the raw input adapted accordingly; raise (`Except.error`) on
any other hint.  The trailing float-to-int normalisation of the source is
the identity on the integer answers modelled here. -/
def run_function (f : CallShape → Int) (pt : ParamType) (data : List Char) :
    Except (List Char) Int :=
  match pt with
  | .listStr => .ok (f (.ofLines (Strings.pySplitlines data)))
  | .plainStr => .ok (f (.ofRaw data))
  | .gridStr => .ok (f (.ofGrid (gridOf data)))
  | .frozenGridStr => .ok (f (.ofFrozenGrid (gridOf data)))
  | .repeatingGridStr => .ok (f (.ofRepeatingGrid (gridOf data)))
  | .unknown => .error data

/-- C3: `run_function` adapts the raw input to the annotated parameter
shape — split lines for `list[str]`, the raw string for `str`, wrapped split
lines for the three grid hints — and for any other hint it raises an
exception without calling the function with any shape at all (the result is
an error that does not depend on the function). -/
theorem run_function_dispatch (data : List Char) (f g : CallShape → Int) :
    run_function f .listStr data
        = .ok (f (.ofLines (Strings.pySplitlines data)))
    ∧ run_function f .plainStr data = .ok (f (.ofRaw data))
    ∧ run_function f .gridStr data = .ok (f (.ofGrid (gridOf data)))
    ∧ run_function f .frozenGridStr data
        = .ok (f (.ofFrozenGrid (gridOf data)))
    ∧ run_function f .repeatingGridStr data
        = .ok (f (.ofRepeatingGrid (gridOf data)))
    ∧ run_function f .unknown data = .error data
    ∧ run_function f .unknown data = run_function g .unknown data :=
  ⟨rfl, rfl, rfl, rfl, rfl, rfl, rfl⟩

end Run
